import Mathlib

/-
Verification of the AudioLab ensemble source-separation pipeline
(modules/audio_separator/audio_separator_nu.py) against its specification.

Waveforms are embedded per channel and per sample as functions ℕ → ℝ with an
explicit length; overlap fractions (Python floats) are embedded as ℚ; the
neural backends (torch / onnx models) are opaque black-box transforms, kept
as parameters, exactly as the spec's scope declares them external.
-/

noncomputable section

namespace AudioSep

/-- Per-sample clip to [-1, 1], embedding `np.clip(res, -1, 1)`
(separate_music_file, lines 691/697/703). -/
def clip1 (x : ℝ) : ℝ := max (-1) (min x 1)

/-- One entry of the stem dictionary `separated_music_arrays` for the three
non-vocal stems, per sample. -/
structure Stems where
  other : ℝ
  drums : ℝ
  bass : ℝ

/-- Residual-refinement step of `separate_music_file` (lines 689-705), per
sample.  Inputs: `m` the mixed sample, `v` the vocals sample, and the
weighted-average Demucs ensemble outputs `out0` (drums row), `out1` (bass
row), `out2` (other row).  The source computes, for each stem,
`res = clip(m - v - <other two raw stems>, -1, 1)` and blends it with the
raw stem as in the code:
  other = (2*res + out2)/3, drums = (res + 2*out0)/3, bass = (res + 2*out1)/3. -/
def residualRefine (m v out0 out1 out2 : ℝ) : Stems :=
  { other := (2 * clip1 (m - v - out0 - out1) + out2) / 3
  , drums := (clip1 (m - v - out1 - out2) + 2 * out0) / 3
  , bass := (clip1 (m - v - out0 - out2) + 2 * out1) / 3 }

/-- Final correction pass of `separate_music_file` (lines 707-713), per
sample.  The source first binds the local names `bass`, `drums`, `other` to
the current dictionary entries and then performs the three dictionary
assignments; the locals are never rebound, so every assignment reads the
pre-pass snapshot:
  bass = separated_music_arrays['bass']; drums = ...; other = ...
  separated_music_arrays['other'] = mixed - vocals - bass - drums
  separated_music_arrays['drums'] = mixed - vocals - bass - other
  separated_music_arrays['bass']  = mixed - vocals - drums - other -/
def finalPass (m v : ℝ) (s : Stems) : Stems :=
  let bass := s.bass
  let drums := s.drums
  let other := s.other
  let s1 : Stems := { s with other := m - v - bass - drums }
  let s2 : Stems := { s1 with drums := m - v - bass - other }
  let s3 : Stems := { s2 with bass := m - v - drums - other }
  s3

/-- Modelled from the spec: the final correction pass as the specification
describes it, "recompute other = mix − vocals − bass − drums, drums = mix −
vocals − bass − other, bass = mix − vocals − drums − other sequentially
(each uses the just-updated values of the others)".  This definition is the
spec's sequential reading, written for comparison with `finalPass`, which is
the code's actual snapshot semantics. -/
def finalPassSpec (m v : ℝ) (s : Stems) : Stems :=
  let s1 : Stems := { s with other := m - v - s.bass - s.drums }
  let s2 : Stems := { s1 with drums := m - v - s1.bass - s1.other }
  let s3 : Stems := { s2 with bass := m - v - s2.drums - s2.other }
  s3

/-- The same three assignments of `finalPass`, read from the same pre-pass
snapshot, performed in the reverse order (bass, then drums, then other);
used to state that the code's pass is order-independent. -/
def finalPassRev (m v : ℝ) (s : Stems) : Stems :=
  let bass := s.bass
  let drums := s.drums
  let other := s.other
  let s1 : Stems := { s with bass := m - v - drums - other }
  let s2 : Stems := { s1 with drums := m - v - bass - other }
  let s3 : Stems := { s2 with other := m - v - bass - drums }
  s3

/-- Hann window sample, embedding `np.hanning(M)[k]`: numpy returns `[1.]`
for `M = 1` and otherwise `0.5 - 0.5*cos(2*pi*k/(M-1))` for `k = 0..M-1`. -/
def hanning (M k : ℕ) : ℝ :=
  if M ≤ 1 then 1 else 1 / 2 - 1 / 2 * Real.cos (2 * Real.pi * k / ((M : ℝ) - 1))

/-- The per-chunk MDX model data used by `demix`: the scalar parameters
`n_fft` and `chunk_size` of `models[0]` (a `Conv_TDF_net_trim_model`), plus
the three opaque transforms applied per chunk — `models[0].stft`, the ONNX
session `infer_session.run`, and `models[0].istft`.  Spectra are indexed by
(frequency bin, frame); the neural transforms are external black boxes. -/
structure MdxModel where
  nFft : ℕ
  chunkSize : ℕ
  stft : (ℕ → ℝ) → ℕ → ℕ → ℝ
  run : (ℕ → ℕ → ℝ) → ℕ → ℕ → ℝ
  istft : (ℕ → ℕ → ℝ) → ℕ → ℝ

/-- `trim = n_fft // 2` (demix, line 265). -/
def trimOf (M : MdxModel) : ℕ := M.nFft / 2

/-- `gen_size = chunk_size - 2 * trim` (demix, line 270). -/
def genSize (M : MdxModel) : ℕ := M.chunkSize - 2 * trimOf M

/-- `pad = gen_size + trim - (mix.shape[-1] % gen_size)` (demix, line 271). -/
def padOf (M : MdxModel) (L : ℕ) : ℕ := genSize M + trimOf M - L % genSize M

/-- Length of the padded `mixture` array
`concatenate((zeros(trim), mix, zeros(pad)))` (demix, line 273). -/
def mixtureLen (M : MdxModel) (L : ℕ) : ℕ := trimOf M + L + padOf M L

/-- The padded `mixture` array (demix, line 273): `trim` leading zeros, the
input of length `L`, then trailing zeros. -/
def mixtureArr (M : MdxModel) (mix : ℕ → ℝ) (L : ℕ) : ℕ → ℝ := fun j =>
  if j < trimOf M then 0
  else if j < trimOf M + L then mix (j - trimOf M) else 0

/-- `step = int((1 - overlap) * chunk_size)` (demix, line 275).  Python's
`int()` truncates toward zero, which coincides with the floor for the
nonnegative products arising from `overlap ≤ 1`. -/
def stepOf (M : MdxModel) (overlap : ℚ) : ℕ :=
  (Int.floor ((1 - overlap) * M.chunkSize : ℚ)).toNat

/-- Number of iterations of the chunk loop `for i in range(0, mixture_len,
step)` (demix, line 280): the multiples of `step` below `mixture_len`. -/
def numChunks (M : MdxModel) (L : ℕ) (overlap : ℚ) : ℕ :=
  (mixtureLen M L + stepOf M overlap - 1) / stepOf M overlap

/-- `chunk_size_actual = end - start` for chunk `m`, where
`start = m * step` and `end = min(start + chunk_size, mixture_len)`
(demix, lines 282-284). -/
def csaOf (M : MdxModel) (L : ℕ) (overlap : ℚ) (m : ℕ) : ℕ :=
  min (m * stepOf M overlap + M.chunkSize) (mixtureLen M L) - m * stepOf M overlap

/-- Chunk `m` contributes to sample position `j`: `start ≤ j < end`,
the index range of the accumulations
`divider[..., start:end] += ...` / `result[..., start:end] += ...`. -/
def chunkCovers (M : MdxModel) (L : ℕ) (overlap : ℚ) (m j : ℕ) : Prop :=
  m * stepOf M overlap ≤ j ∧
    j < min (m * stepOf M overlap + M.chunkSize) (mixtureLen M L)

instance (M : MdxModel) (L : ℕ) (overlap : ℚ) (m j : ℕ) :
    Decidable (chunkCovers M L overlap m j) :=
  inferInstanceAs (Decidable (_ ∧ _))

/-- The window weight accumulated per in-chunk offset `k`: `np.hanning` of
the actual chunk length when `overlap != 0`, and the constant 1 when
`overlap == 0` (`window = None`, `divider += 1`) (demix, lines 286-290 and
310-314). -/
def winv (overlap : ℚ) (csa k : ℕ) : ℝ :=
  if overlap = 0 then 1 else hanning csa k

/-- `mix_part_`, the input of chunk `m`: `mixture[start:end]` zero-padded on
the right to the full `chunk_size` (demix, lines 292-295). -/
def chunkInput (M : MdxModel) (mix : ℕ → ℝ) (L : ℕ) (overlap : ℚ) (m : ℕ) :
    ℕ → ℝ := fun k =>
  if k < csaOf M L overlap m then mixtureArr M mix L (m * stepOf M overlap + k)
  else 0

/-- `stft_res[:, :, :3, :] *= 0` (demix, line 304): the lowest three
frequency bins — the DC bin 0 and bins 1, 2 — of the transformed spectrum
are zeroed; all other bins pass through. -/
def zeroLowBins (s : ℕ → ℕ → ℝ) : ℕ → ℕ → ℝ := fun b t =>
  if b < 3 then 0 else s b t

/-- The per-chunk transform of `demix` (lines 300-308): STFT, zero the
lowest three bins, run the ONNX session on the result, inverse STFT. -/
def chunkOut (M : MdxModel) (c : ℕ → ℝ) : ℕ → ℝ :=
  M.istft (M.run (zeroLowBins (M.stft c)))

/-- The `divider` accumulator after the chunk loop of `demix` (lines
277-314): for each sample position, the sum of the window weights of the
chunks covering it. -/
def dividerArr (M : MdxModel) (L : ℕ) (overlap : ℚ) : ℕ → ℝ := fun j =>
  ∑ m ∈ Finset.range (numChunks M L overlap),
    if chunkCovers M L overlap m j then
      winv overlap (csaOf M L overlap m) (j - m * stepOf M overlap)
    else 0

/-- The `result` accumulator after the chunk loop of `demix` (lines 276-315):
for each sample position, the sum of the windowed per-chunk model outputs of
the chunks covering it. -/
def resultArr (M : MdxModel) (mix : ℕ → ℝ) (L : ℕ) (overlap : ℚ) : ℕ → ℝ :=
  fun j =>
  ∑ m ∈ Finset.range (numChunks M L overlap),
    if chunkCovers M L overlap m j then
      winv overlap (csaOf M L overlap m) (j - m * stepOf M overlap) *
        chunkOut M (chunkInput M mix L overlap m) (j - m * stepOf M overlap)
    else 0

/-- The Windowed Chunk Processor `demix` (lines 263-323): overlap-add of the
per-chunk model outputs, normalized by `divider`, with the symmetric `trim`
padding removed and the result truncated to the input length (sample `j` of
the output, meaningful for `j < L`, is sample `trim + j` of
`result / divider`). -/
def demix (M : MdxModel) (mix : ℕ → ℝ) (L : ℕ) (overlap : ℚ) : ℕ → ℝ :=
  fun j =>
  resultArr M mix L overlap (trimOf M + j) / dividerArr M L overlap (trimOf M + j)

/-- Circular right-rotation by `s` of a length-`N` waveform, embedding
`np.concatenate((mix[:, -shift:], mix[:, :-shift]), axis=-1)` (demix_wrapper
line 253, demix_full_mdx23c line 234, demix_full_vitlarge line 372).  Sample
`j < s` comes from the block of the last `s` samples, sample `s ≤ j < N`
from the first `N - s` samples; for `s = 0` Python's slices give the whole
array followed by an empty one, so the expression is the input itself, as
this embedding also gives. -/
def rotR (N s : ℕ) (x : ℕ → ℝ) : ℕ → ℝ := fun j =>
  if j < s then x (N - s + j) else x (j - s)

/-- Restoring left-rotation by `s`, embedding
`np.concatenate((sources[..., shift:], sources[..., :shift]), axis=-1)`
(demix_wrapper line 255, demix_full_mdx23c line 237, demix_full_vitlarge
lines 376-377). -/
def rotL (N s : ℕ) (x : ℕ → ℝ) : ℕ → ℝ := fun j =>
  if j < N - s then x (j + s) else x (j - (N - s))

/-- Effective shift count: `if bigshifts <= 0: bigshifts = 1`
(demix_wrapper lines 246-247; same guard on `options["BigShifts"]` in
demix_full_mdx23c lines 224-227 and demix_full_vitlarge lines 361-364). -/
def bigshiftsEff (b : ℤ) : ℕ := if b ≤ 0 then 1 else b.toNat

/-- The shift list `[x * (N // bigshifts) for x in range(bigshifts)]`
(demix_wrapper lines 248-249 and the same two lines in demix_full_mdx23c
and demix_full_vitlarge). -/
def shiftsList (N bs : ℕ) : List ℕ := (List.range bs).map (fun x => x * (N / bs))

/-- The circular-shift ensembler `demix_wrapper` (lines 245-260): for each
shift, rotate the mix, run `demix`, scale by the volume-compensation factor
1.021, rotate back; return the arithmetic mean of the restored results. -/
def demixWrapper (M : MdxModel) (mix : ℕ → ℝ) (N : ℕ) (overlap : ℚ)
    (bigshifts : ℤ) : ℕ → ℝ := fun j =>
  (((shiftsList N (bigshiftsEff bigshifts)).map (fun s =>
      rotL N s (fun t => 1.021 * demix M (rotR N s mix) N overlap t) j)).sum)
    / (bigshiftsEff bigshifts)

/-- The circular-shift ensembler `demix_full_mdx23c` (lines 223-242), with
the inner call `demix_base_mdxv3(model, shifted_mix, device)["Vocals"]` kept
opaque as `baseVocals`; each shifted result is scaled by the
volume-compensation factor 1.0005168 before being rotated back, and the
restored results are averaged. -/
def demixFullMdx23c (baseVocals : (ℕ → ℝ) → ℕ → ℝ) (mix : ℕ → ℝ) (N : ℕ)
    (bigShifts : ℤ) : ℕ → ℝ := fun j =>
  (((shiftsList N (bigshiftsEff bigShifts)).map (fun s =>
      rotL N s (fun t => 1.0005168 * baseVocals (rotR N s mix) t) j)).sum)
    / (bigshiftsEff bigShifts)

/-- The circular-shift ensembler `demix_full_vitlarge` (lines 360-384), with
the inner call `demix_vitlarge(model, shifted_mix, device)` kept opaque as
`base`, returning the (vocals, other) pair; the vocals result is scaled by
the volume-compensation factor 1.002, the other result is not. -/
def demixFullVitlarge (base : (ℕ → ℝ) → (ℕ → ℝ) × (ℕ → ℝ)) (mix : ℕ → ℝ)
    (N : ℕ) (bigShifts : ℤ) : (ℕ → ℝ) × (ℕ → ℝ) :=
  (fun j =>
    (((shiftsList N (bigshiftsEff bigShifts)).map (fun s =>
        rotL N s (fun t => 1.002 * (base (rotR N s mix)).1 t) j)).sum)
      / (bigshiftsEff bigShifts),
   fun j =>
    (((shiftsList N (bigshiftsEff bigShifts)).map (fun s =>
        rotL N s (fun t => (base (rotR N s mix)).2 t) j)).sum)
      / (bigshiftsEff bigShifts))

/-- The concrete MDX model constants of the program: `get_models` is called
with `vocals_model_type = 2` (line 508), giving `n_fft = 7680` and
`chunk_size = hop * (dim_t - 1) = 1024 * 255 = 261120`; the three transforms
are instantiated so that the composite per-chunk transform `chunkOut` is the
identity (the spectrum is the chunk itself placed in every bin, the session
is the identity, and the inverse transform reads bin 3, which the low-bin
zeroing leaves untouched). -/
def Mex : MdxModel :=
  { nFft := 7680
  , chunkSize := 261120
  , stft := fun c _ t => c t
  , run := fun s => s
  , istft := fun s => s 3 }

/-- The two-backend vocals combination of `separate_music_file` (line 601),
per sample: `(weights[0]*vocals3 + weights[1]*vocals4) / weights.sum()` with
`weights = [weight_InstVoc, weight_VitLarge]`. -/
def vocalsEnsemble2 (wInstVoc wVitLarge v3 v4 : ℝ) : ℝ :=
  (wInstVoc * v3 + wVitLarge * v4) / (wInstVoc + wVitLarge)

/-- The three-backend vocals combination of `separate_music_file` (lines
607-609), per sample: `(weights[0]*vocals_mdxb1 + weights[1]*vocals3 +
weights[2]*vocals4) / weights.sum()` with
`weights = [weight_VOCFT, weight_InstVoc, weight_VitLarge]`. -/
def vocalsEnsemble3 (wVOCFT wInstVoc wVitLarge v1 v3 v4 : ℝ) : ℝ :=
  (wVOCFT * v1 + wInstVoc * v3 + wVitLarge * v4) / (wVOCFT + wInstVoc + wVitLarge)

/-- The Demucs per-stem weighted average of `separate_music_file` (lines
629-632, 683-687), per sample: each of the four backend outputs for a given
stem is scaled by that backend's weight for the stem, the four are summed,
and the sum is divided by the total weight of that stem. -/
def demucsStemAvg (w x : Fin 4 → ℝ) : ℝ := (∑ i, w i * x i) / (∑ i, w i)

/-- The upfront input-validation loop of `predict_with_model` (lines
738-741): walk the input list and fail on the first path that is not an
existing file.  File paths are abstracted to an arbitrary type `α` and
`os.path.isfile` to the predicate `isfile`. -/
def validateInputs {α : Type} (isfile : α → Bool) : List α → Bool
  | [] => true
  | f :: rest => if isfile f then validateInputs isfile rest else false

/-- The per-file processing loop of `predict_with_model` (lines 752-789):
each input file is loaded, separated and written, appending its output
paths (stems plus instrumental) to `output_files`; the whole per-file
pipeline is abstracted as `process`. -/
def processOutputs {α : Type} (process : α → List α) : List α → List α
  | [] => []
  | f :: rest => process f ++ processOutputs process rest

/-- Control flow of `predict_with_model` (lines 725-792): if any input path
fails the upfront validation the function returns `None` at once (line 741),
before the model is loaded and before any file is processed; otherwise every
file is processed and the accumulated output path list is returned. -/
def predictWithModel {α : Type} (isfile : α → Bool) (inputs : List α)
    (process : α → List α) : Option (List α) :=
  if validateInputs isfile inputs then some (processOutputs process inputs)
  else none

/-- C1 counterexample: with mix = 0, vocals = 0 and raw Demucs ensemble
stems out0 = out1 = out2 = 1, the stems returned after the final correction
pass (applied to the clipped residual-refinement output, exactly as in
`separate_music_file`) sum with the vocals to -2/3, not to the mix 0; exact
stem closure fails. -/
theorem stem_closure_cex :
    (0 : ℝ) + (finalPass 0 0 (residualRefine 0 0 1 1 1)).bass
      + (finalPass 0 0 (residualRefine 0 0 1 1 1)).drums
      + (finalPass 0 0 (residualRefine 0 0 1 1 1)).other ≠ 0 := by
  norm_num [finalPass, residualRefine, clip1]

/-- C1 (amended): after the final correction pass the stems satisfy
vocals + bass + drums + other = 3*mix − 2*(vocals + bass₀ + drums₀ + other₀)
where bass₀, drums₀, other₀ are the pre-pass stem values; hence the claimed
closure vocals + bass + drums + other = mix holds exactly when the pre-pass
stems already summed (with vocals) to the mix, and not in general. -/
theorem stem_closure_amended (m v : ℝ) (s : Stems) :
    v + (finalPass m v s).bass + (finalPass m v s).drums + (finalPass m v s).other
        = 3 * m - 2 * v - 2 * (s.bass + s.drums + s.other)
      ∧ (v + s.bass + s.drums + s.other = m →
        v + (finalPass m v s).bass + (finalPass m v s).drums
          + (finalPass m v s).other = m) := by
  constructor
  · simp only [finalPass]
    ring
  · intro h
    simp only [finalPass]
    linarith

/-- C1 witness: the amended closure law evaluated at mix = 1, vocals = 0 and
pre-pass stems (other, drums, bass) = (1, 0, 0), which do sum to the mix, so
the corrected stems close exactly. -/
theorem stem_closure_amended_witness :
    (0 : ℝ) + (finalPass 1 0 ⟨1, 0, 0⟩).bass + (finalPass 1 0 ⟨1, 0, 0⟩).drums
      + (finalPass 1 0 ⟨1, 0, 0⟩).other = 1 :=
  (stem_closure_amended 1 0 ⟨1, 0, 0⟩).2 (by norm_num)

/-- C2 counterexample: at mix = 0, vocals = 0 and pre-pass stems
(other, drums, bass) = (1, 1, 1), the code's final pass produces
drums = -2 while the spec's sequential reading (each recomputation using the
just-updated values) produces drums = 1: the claim's description of the
update semantics is false for the code. -/
theorem final_pass_seq_cex :
    (finalPass 0 0 ⟨1, 1, 1⟩).drums ≠ (finalPassSpec 0 0 ⟨1, 1, 1⟩).drums := by
  norm_num [finalPass, finalPassSpec]

/-- C2 (amended): the final correction pass reads the snapshot of the stems
taken before any update, so the three recomputed stems are the simultaneous
residuals other = m−v−bass₀−drums₀, drums = m−v−bass₀−other₀,
bass = m−v−drums₀−other₀, and the result does not depend on the order in
which the three assignments are performed. -/
theorem final_pass_snapshot (m v : ℝ) (s : Stems) :
    finalPass m v s = { other := m - v - s.bass - s.drums
                      , drums := m - v - s.bass - s.other
                      , bass := m - v - s.drums - s.other }
      ∧ finalPass m v s = finalPassRev m v s := by
  constructor <;> rfl

/-- C7: shift round-trip — rotating a length-`N` waveform right by `k`
(last `k` samples first) and then applying the restore step (samples from
index `k` onward first) reproduces the original waveform at every sample
position `j < N`, for all `0 ≤ k < N`. -/
theorem shift_round_trip (N k : ℕ) (x : ℕ → ℝ) (hk : k < N) (j : ℕ)
    (hj : j < N) : rotL N k (rotR N k x) j = x j := by
  simp only [rotL, rotR]
  rcases lt_or_le j (N - k) with h | h
  · rw [if_pos h, if_neg (by omega)]
    congr 1
    omega
  · rw [if_neg (by omega), if_pos (by omega)]
    congr 1
    omega

/-- C7 witness: the round-trip at N = 5, k = 2, on the ramp waveform, at
sample 3. -/
theorem shift_round_trip_witness :
    rotL 5 2 (rotR 5 2 (fun t => (t : ℝ))) 3 = ((3 : ℕ) : ℝ) :=
  shift_round_trip 5 2 (fun t => (t : ℝ)) (by norm_num) 3 (by norm_num)

/-- C9: in the per-chunk transform of `demix`, the spectrum handed on to the
ONNX session and thence to the inverse transform is the STFT of the chunk
with its lowest three frequency bins — the DC bin 0 together with bins 1 and
2 — zeroed, and every bin from 3 upward passed through unchanged. -/
theorem low_bins_zeroed (M : MdxModel) (c : ℕ → ℝ) :
    chunkOut M c = M.istft (M.run (zeroLowBins (M.stft c)))
      ∧ (∀ t, zeroLowBins (M.stft c) 0 t = 0)
      ∧ (∀ b t, b < 3 → zeroLowBins (M.stft c) b t = 0)
      ∧ (∀ b t, 3 ≤ b → zeroLowBins (M.stft c) b t = M.stft c b t) := by
  refine ⟨rfl, fun t => if_pos (by norm_num), fun b t hb => if_pos hb,
    fun b t hb => if_neg (by omega)⟩

/-- C9 witness: the zeroing evaluated on the concrete model `Mex` and the
constant chunk, at bin 2 and frame 0. -/
theorem low_bins_zeroed_witness :
    zeroLowBins (Mex.stft fun _ => (1 : ℝ)) 2 0 = 0 :=
  (low_bins_zeroed Mex (fun _ => (1 : ℝ))).2.2.1 2 0 (by norm_num)

/-- C6 counterexample: with input list `[0, 1]` where path 0 does not name
an existing file and path 1 does, `predict_with_model` returns `None`
immediately — it does not continue with the remaining file and does not
return the output paths produced for it (which the claim says would be
`[10]` here, `process` mapping each path `f` to `[10 * (f + 1)]`). -/
theorem missing_file_cex :
    predictWithModel (fun f : ℕ => f != 0) [0, 1] (fun f => [10 * (f + 1)])
        = none
      ∧ (fun f : ℕ => f != 0) 1 = true := by
  constructor <;> rfl

/-- C6 (amended): if some path in the input list fails the existence check,
`predict_with_model` reports it and returns `None` at once, so no file in
the batch is processed and no output list is produced; only when every input
path exists does the batch run to completion and return the accumulated
output paths of all files. -/
theorem missing_file_aborts_batch {α : Type} (isfile : α → Bool)
    (inputs : List α) (process : α → List α) :
    ((∃ f ∈ inputs, isfile f = false) →
        predictWithModel isfile inputs process = none)
      ∧ ((∀ f ∈ inputs, isfile f = true) →
        predictWithModel isfile inputs process
          = some (processOutputs process inputs)) := by
  have hval : validateInputs isfile inputs = inputs.all isfile := by
    induction inputs with
    | nil => rfl
    | cons f rest ih =>
      rcases h : isfile f with _ | _ <;>
        simp [validateInputs, h, ih]
  constructor
  · intro ⟨f, hf, hmiss⟩
    have hv : validateInputs isfile inputs = false := by
      rw [hval]
      simp only [List.all_eq_false]
      exact ⟨f, hf, by simp [hmiss]⟩
    simp [predictWithModel, hv]
  · intro hall
    have hv : validateInputs isfile inputs = true := by
      rw [hval]
      simpa using hall
    simp [predictWithModel, hv]

/-- C6 witness: with both inputs missing-free the batch returns the
concatenated outputs, and with input 0 missing it returns `None`. -/
theorem missing_file_aborts_batch_witness :
    predictWithModel (fun f : ℕ => f != 0) [1, 2] (fun f => [10 * (f + 1)])
      = some [20, 30] :=
  (missing_file_aborts_batch (fun f : ℕ => f != 0) [1, 2]
    (fun f => [10 * (f + 1)])).2 (by decide)

/-- C10 counterexample: for a waveform of length N = 1 and configured
`BigShifts = 2`, `shift_in_samples = 1 // 2 = 0` and the shift list is
`[0, 0]`: the ensemble run performs two passes of the inner transform on the
unrotated waveform, not exactly one. -/
theorem zero_shift_cex : (shiftsList 1 (bigshiftsEff 2)).count 0 ≠ 1 := by
  decide

/-- C10 (amended): the shift offset 0 is always the first element of the
shift list; zero-shift rotation and its restore step are the identity on
every sample of the array; when `bigshifts = 1` the shift list is exactly
`[0]`, so the only pass is unrotated; and whenever
`shift_in_samples = N // bigshifts ≥ 1` (in particular whenever
`N ≥ bigshifts ≥ 1`) the list contains offset 0 exactly once, so exactly one
pass of the inner transform runs on the unrotated waveform.  (If
`N < bigshifts` every offset is 0 and every pass is unrotated.) -/
theorem zero_shift_identity :
    (∀ N bs : ℕ, 1 ≤ bs → (shiftsList N bs).head? = some 0)
      ∧ (∀ (N : ℕ) (x : ℕ → ℝ) (j : ℕ), rotR N 0 x j = x j)
      ∧ (∀ (N : ℕ) (x : ℕ → ℝ) (j : ℕ), j < N → rotL N 0 x j = x j)
      ∧ (∀ N : ℕ, shiftsList N (bigshiftsEff 1) = [0])
      ∧ (∀ N bs : ℕ, 1 ≤ N / bs → (shiftsList N bs).count 0 = 1) := by
  refine ⟨?_, ?_, ?_, ?_, ?_⟩
  · intro N bs hbs
    cases bs with
    | zero => omega
    | succ k => simp [shiftsList, List.range_succ_eq_map]
  · intro N x j
    simp [rotR]
  · intro N x j hj
    simp [rotL, hj]
  · intro N
    simp [shiftsList, bigshiftsEff, List.range_succ]
  · intro N bs hquot
    have hΔ : 0 < N / bs := hquot
    have hbs : 0 < bs := by
      rcases Nat.eq_zero_or_pos bs with h | h
      · rw [h] at hquot
        simp at hquot
      · exact h
    have hinj : Function.Injective (fun x : ℕ => x * (N / bs)) := by
      intro a b hab
      exact Nat.eq_of_mul_eq_mul_right hΔ hab
    have h0 : (0 : ℕ) = 0 * (N / bs) := by simp
    rw [shiftsList, h0, List.count_map_of_injective _ _ hinj]
    exact List.count_eq_one_of_mem (List.nodup_range _) (by simpa using hbs)

/-- C10 witness: the amended statement instantiated — head of the shift list
for N = 10, bigshifts = 3; zero-rotation identity at N = 4, sample 2; the
singleton list for bigshifts = 1; and the exactly-one-zero count for N = 10,
bigshifts = 3. -/
theorem zero_shift_identity_witness :
    (shiftsList 10 3).head? = some 0
      ∧ rotL 4 0 (fun t => (t : ℝ)) 2 = ((2 : ℕ) : ℝ)
      ∧ shiftsList 10 (bigshiftsEff 1) = [0]
      ∧ (shiftsList 10 3).count 0 = 1 :=
  ⟨zero_shift_identity.1 10 3 (by norm_num),
   zero_shift_identity.2.2.1 4 (fun t => (t : ℝ)) 2 (by norm_num),
   zero_shift_identity.2.2.2.1 10,
   zero_shift_identity.2.2.2.2 10 3 (by norm_num)⟩

/-- C5 counterexample: for shift count 1 the ensembler `demix_full_mdx23c`
does not return the value of a single direct call of its inner transform: on
a length-1 waveform with the inner transform constantly 1, the direct call
gives 1 but the ensembler gives 1.0005168 (the volume-compensation scalar is
applied to the shifted result before averaging). -/
theorem shift_ensemble_one_cex :
    demixFullMdx23c (fun _ _ => (1 : ℝ)) (fun _ => 0) 1 1 0 ≠ 1 := by
  simp only [demixFullMdx23c, bigshiftsEff, shiftsList]
  norm_num [List.range_succ, rotL]

/-- C5 (amended): for any configured BigShifts value `b ≤ 1` (so the
effective shift count is 1, values ≤ 0 being treated as 1), each of the
three circular-shift ensemblers returns, at every sample `j < N`, exactly
its per-backend volume-compensation scalar times the value of a single
direct call of the inner transform on the unrotated input — factor 1.021
for `demix_wrapper` around `demix`, 1.0005168 for `demix_full_mdx23c`, and
1.002 on the vocals output of `demix_full_vitlarge` whose other output is
returned uncompensated; no rotation takes place. -/
theorem shift_ensemble_one (M : MdxModel) (overlap : ℚ) (mix : ℕ → ℝ) (N : ℕ)
    (F : (ℕ → ℝ) → ℕ → ℝ) (G : (ℕ → ℝ) → (ℕ → ℝ) × (ℕ → ℝ)) (b : ℤ)
    (hb : b ≤ 1) (j : ℕ) (hj : j < N) :
    demixWrapper M mix N overlap b j = 1.021 * demix M mix N overlap j
      ∧ demixFullMdx23c F mix N b j = 1.0005168 * F mix j
      ∧ (demixFullVitlarge G mix N b).1 j = 1.002 * (G mix).1 j
      ∧ (demixFullVitlarge G mix N b).2 j = (G mix).2 j := by
  have hbs : bigshiftsEff b = 1 := by
    unfold bigshiftsEff
    rcases le_or_lt b 0 with h | h
    · rw [if_pos h]
    · rw [if_neg (by omega)]
      omega
  have hsl : shiftsList N 1 = [0] := by simp [shiftsList, List.range_succ]
  have hrot : rotR N 0 mix = mix := by
    funext t
    simp [rotR]
  refine ⟨?_, ?_, ?_, ?_⟩ <;>
    simp [demixWrapper, demixFullMdx23c, demixFullVitlarge, hbs, hsl, rotL,
      hj, hrot]

/-- C5 witness: the amended statement at the concrete model `Mex`, a
length-1 zero waveform, constant inner transforms, and configured
BigShifts value 0 (treated as shift count 1). -/
theorem shift_ensemble_one_witness :
    demixWrapper Mex (fun _ => 0) 1 (1 / 10) 0 0
          = 1.021 * demix Mex (fun _ => 0) 1 (1 / 10) 0
      ∧ demixFullMdx23c (fun _ _ => (1 : ℝ)) (fun _ => 0) 1 0 0
          = 1.0005168 * (1 : ℝ)
      ∧ (demixFullVitlarge (fun _ => (fun _ => (1 : ℝ), fun _ => (2 : ℝ)))
          (fun _ => 0) 1 0).1 0 = 1.002 * (1 : ℝ)
      ∧ (demixFullVitlarge (fun _ => (fun _ => (1 : ℝ), fun _ => (2 : ℝ)))
          (fun _ => 0) 1 0).2 0 = (2 : ℝ) :=
  shift_ensemble_one Mex (1 / 10) (fun _ => 0) 1 (fun _ _ => (1 : ℝ))
    (fun _ => (fun _ => (1 : ℝ), fun _ => (2 : ℝ))) 0 (by norm_num) 0
    (by norm_num)

/-- C8: each weighted-average combination step of the pipeline — the
two-backend and three-backend vocal ensembles and the four-model Demucs
per-stem average — produces, at every sample, a value lying between the
component-wise minimum and maximum of the backend estimates it combines,
for every strictly positive weight vector. -/
theorem weighted_avg_convex (wI wV wF v1 v3 v4 : ℝ) (w x : Fin 4 → ℝ)
    (lo hi : ℝ) (hwI : 0 < wI) (hwV : 0 < wV) (hwF : 0 < wF)
    (hw : ∀ i, 0 < w i) (hlo : ∀ i, lo ≤ x i) (hhi : ∀ i, x i ≤ hi) :
    (min v3 v4 ≤ vocalsEnsemble2 wI wV v3 v4
        ∧ vocalsEnsemble2 wI wV v3 v4 ≤ max v3 v4)
      ∧ (min v1 (min v3 v4) ≤ vocalsEnsemble3 wF wI wV v1 v3 v4
        ∧ vocalsEnsemble3 wF wI wV v1 v3 v4 ≤ max v1 (max v3 v4))
      ∧ (lo ≤ demucsStemAvg w x ∧ demucsStemAvg w x ≤ hi) := by
  have hS2 : (0 : ℝ) < wI + wV := by linarith
  have hS3 : (0 : ℝ) < wF + wI + wV := by linarith
  have hS4 : (0 : ℝ) < ∑ i, w i :=
    Finset.sum_pos (fun i _ => hw i) ⟨⟨0, by norm_num⟩, Finset.mem_univ _⟩
  refine ⟨⟨?_, ?_⟩, ⟨?_, ?_⟩, ?_, ?_⟩
  · rw [vocalsEnsemble2, le_div_iff₀ hS2]
    nlinarith [mul_le_mul_of_nonneg_left (min_le_left v3 v4) hwI.le,
      mul_le_mul_of_nonneg_left (min_le_right v3 v4) hwV.le]
  · rw [vocalsEnsemble2, div_le_iff₀ hS2]
    nlinarith [mul_le_mul_of_nonneg_left (le_max_left v3 v4) hwI.le,
      mul_le_mul_of_nonneg_left (le_max_right v3 v4) hwV.le]
  · rw [vocalsEnsemble3, le_div_iff₀ hS3]
    nlinarith [mul_le_mul_of_nonneg_left (min_le_left v1 (min v3 v4)) hwF.le,
      mul_le_mul_of_nonneg_left
        ((min_le_right v1 (min v3 v4)).trans (min_le_left v3 v4)) hwI.le,
      mul_le_mul_of_nonneg_left
        ((min_le_right v1 (min v3 v4)).trans (min_le_right v3 v4)) hwV.le]
  · rw [vocalsEnsemble3, div_le_iff₀ hS3]
    nlinarith [mul_le_mul_of_nonneg_left (le_max_left v1 (max v3 v4)) hwF.le,
      mul_le_mul_of_nonneg_left
        ((le_max_left v3 v4).trans (le_max_right v1 (max v3 v4))) hwI.le,
      mul_le_mul_of_nonneg_left
        ((le_max_right v3 v4).trans (le_max_right v1 (max v3 v4))) hwV.le]
  · rw [demucsStemAvg, le_div_iff₀ hS4, Finset.mul_sum]
    apply Finset.sum_le_sum
    intro i _
    have := mul_le_mul_of_nonneg_left (hlo i) (hw i).le
    linarith
  · rw [demucsStemAvg, div_le_iff₀ hS4, Finset.mul_sum]
    apply Finset.sum_le_sum
    intro i _
    have := mul_le_mul_of_nonneg_left (hhi i) (hw i).le
    linarith

/-- C8 witness: the convexity bounds at the code's default weights
(weight_InstVoc = 8, weight_VitLarge = 5, weight_VOCFT = 1), the Demucs
drums weight row [18, 2, 4, 9], and concrete backend estimates. -/
theorem weighted_avg_convex_witness :
    (min (0 : ℝ) 1 ≤ vocalsEnsemble2 8 5 0 1
        ∧ vocalsEnsemble2 8 5 0 1 ≤ max (0 : ℝ) 1)
      ∧ (min (2 : ℝ) (min 0 1) ≤ vocalsEnsemble3 1 8 5 2 0 1
        ∧ vocalsEnsemble3 1 8 5 2 0 1 ≤ max (2 : ℝ) (max 0 1))
      ∧ ((1 : ℝ) ≤ demucsStemAvg ![18, 2, 4, 9] (fun _ => 1)
        ∧ demucsStemAvg ![18, 2, 4, 9] (fun _ => 1) ≤ 1) :=
  weighted_avg_convex 8 5 1 2 0 1 ![18, 2, 4, 9] (fun _ => 1) 1 1
    (by norm_num) (by norm_num) (by norm_num)
    (by intro i; fin_cases i <;> norm_num)
    (fun i => le_refl 1) (fun i => le_refl 1)

/-- Hann window samples are nonnegative. -/
theorem hanning_nonneg (M k : ℕ) : 0 ≤ hanning M k := by
  rw [hanning]
  split
  · norm_num
  · have := Real.cos_le_one (2 * Real.pi * k / ((M : ℝ) - 1))
    linarith

/-- Hann window samples strictly inside the window are strictly positive:
`np.hanning(M)[k] > 0` for `1 ≤ k ≤ M - 2`. -/
theorem hanning_pos (M k : ℕ) (hM : 2 ≤ M) (hk : 1 ≤ k) (hk2 : k + 2 ≤ M) :
    0 < hanning M k := by
  rw [hanning, if_neg (by omega)]
  have hM1 : (0 : ℝ) < (M : ℝ) - 1 := by
    have h2 : (2 : ℝ) ≤ (M : ℝ) := by exact_mod_cast hM
    linarith
  have hθpos : 0 < 2 * Real.pi * k / ((M : ℝ) - 1) := by
    apply div_pos _ hM1
    have hk1 : (1 : ℝ) ≤ (k : ℝ) := by exact_mod_cast hk
    nlinarith [Real.pi_pos]
  have hθlt : 2 * Real.pi * k / ((M : ℝ) - 1) < 2 * Real.pi := by
    rw [div_lt_iff₀ hM1]
    have hkM : (k : ℝ) < (M : ℝ) - 1 := by
      have h2 : (k : ℝ) + 2 ≤ (M : ℝ) := by exact_mod_cast hk2
      linarith
    nlinarith [Real.pi_pos]
  have hcos : Real.cos (2 * Real.pi * k / ((M : ℝ) - 1)) < 1 := by
    rcases lt_or_eq_of_le
      (Real.cos_le_one (2 * Real.pi * k / ((M : ℝ) - 1))) with h | h
    · exact h
    · exfalso
      have hz := (Real.cos_eq_one_iff_of_lt_of_lt
        (by linarith [Real.two_pi_pos]) hθlt).1 h
      rw [hz] at hθpos
      exact lt_irrefl 0 hθpos
  linarith

/-- The first Hann window sample is zero: `np.hanning(M)[0] = 0` for
`M ≥ 2`. -/
theorem hanning_left_zero (M : ℕ) (hM : 2 ≤ M) : hanning M 0 = 0 := by
  rw [hanning, if_neg (by omega)]
  norm_num

/-- The last Hann window sample is zero: `np.hanning(M)[M-1] = 0` for
`M ≥ 2`. -/
theorem hanning_right_zero (M : ℕ) (hM : 2 ≤ M) : hanning M (M - 1) = 0 := by
  rw [hanning, if_neg (by omega)]
  have hM1 : ((M : ℝ) - 1) ≠ 0 := by
    have h2 : (2 : ℝ) ≤ (M : ℝ) := by exact_mod_cast hM
    linarith
  have hcast : ((M - 1 : ℕ) : ℝ) = (M : ℝ) - 1 := by
    have h1 : 1 ≤ M := by omega
    push_cast [h1]
    ring
  rw [hcast, mul_div_assoc, div_self hM1, mul_one, Real.cos_two_pi]
  norm_num

/-- Window weights accumulated into `divider` are nonnegative. -/
theorem winv_nonneg (overlap : ℚ) (csa k : ℕ) : 0 ≤ winv overlap csa k := by
  rw [winv]
  split
  · norm_num
  · exact hanning_nonneg _ _

/-- For `overlap = 0` the chunk stride equals the chunk size. -/
theorem stepOf_overlap_zero (M : MdxModel) : stepOf M 0 = M.chunkSize := by
  simp [stepOf]

/-- A chunk whose slice begins below `mixture_len` is iterated by the chunk
loop: its index is below `numChunks`. -/
theorem mem_numChunks (M : MdxModel) (L : ℕ) (overlap : ℚ) (m : ℕ)
    (h1 : 1 ≤ stepOf M overlap)
    (hm : m * stepOf M overlap < mixtureLen M L) :
    m < numChunks M L overlap := by
  simp only [numChunks]
  rw [Nat.lt_iff_add_one_le,
    Nat.le_div_iff_mul_le (show 0 < stepOf M overlap by omega), add_mul,
    one_mul]
  omega

/-- Arithmetic core of the divider invariant: for stride `s ≤ C - 2`, every
position `1 ≤ j ≤ n - 2` is covered by some chunk at an offset strictly
inside the Hann window of that chunk's actual length. -/
theorem cover_exists (s C n j : ℕ) (h1 : 1 ≤ s) (hsC : s + 2 ≤ C)
    (hj1 : 1 ≤ j) (hj2 : j + 2 ≤ n) :
    ∃ m, (m * s ≤ j ∧ j < min (m * s + C) n) ∧
      1 ≤ j - m * s ∧ j - m * s + 2 ≤ min (m * s + C) n - m * s := by
  have hdm := Nat.div_add_mod j s
  rw [Nat.mul_comm] at hdm
  have hmod : j % s < s := Nat.mod_lt _ (by omega)
  by_cases hr : j % s = 0
  · -- j sits at the start of a chunk; use the previous chunk at offset s
    have h3 : 1 ≤ j / s := by
      rcases Nat.eq_zero_or_pos (j / s) with h0 | h0
      · rw [h0] at hdm
        omega
      · exact h0
    have h2 : (j / s - 1) * s = j / s * s - s := Nat.sub_one_mul _ _
    have h4 : s ≤ j / s * s := Nat.le_mul_of_pos_left s h3
    have hmin : j + 2 ≤ min ((j / s - 1) * s + C) n := le_min (by omega) (by omega)
    have hbase : (j / s - 1) * s ≤ min ((j / s - 1) * s + C) n :=
      le_min (by omega) (by omega)
    exact ⟨j / s - 1, ⟨by omega, lt_min_iff.2 ⟨by omega, by omega⟩⟩,
      by omega, by omega⟩
  · -- j sits strictly inside the chunk that starts at (j / s) * s
    have hmin : j + 2 ≤ min (j / s * s + C) n := le_min (by omega) (by omega)
    have hbase : j / s * s ≤ min (j / s * s + C) n := le_min (by omega) (by omega)
    exact ⟨j / s, ⟨by omega, lt_min_iff.2 ⟨by omega, by omega⟩⟩,
      by omega, by omega⟩

/-- Divider invariant, in the amended form: with stride at least 1 and
either stride ≤ chunk_size − 2 or overlap = 0, the `divider` accumulator of
`demix` is strictly positive at every position `j` with
`1 ≤ j ≤ mixture_len − 2`. -/
theorem divider_pos (M : MdxModel) (L : ℕ) (overlap : ℚ)
    (h1 : 1 ≤ stepOf M overlap)
    (h2 : stepOf M overlap + 2 ≤ M.chunkSize ∨ overlap = 0)
    (j : ℕ) (hj1 : 1 ≤ j) (hj2 : j + 2 ≤ mixtureLen M L) :
    0 < dividerArr M L overlap j := by
  obtain ⟨m0, hcov, hwin⟩ : ∃ m0, chunkCovers M L overlap m0 j ∧
      0 < winv overlap (csaOf M L overlap m0) (j - m0 * stepOf M overlap) := by
    rcases h2 with h2 | h2
    · obtain ⟨m, hc, hoff1, hoff2⟩ :=
        cover_exists (stepOf M overlap) M.chunkSize (mixtureLen M L) j h1 h2
          hj1 hj2
      refine ⟨m, hc, ?_⟩
      have hov : overlap ≠ 0 := by
        intro h
        rw [h, stepOf_overlap_zero] at h2
        omega
      rw [winv, if_neg hov]
      apply hanning_pos
      · simp only [csaOf]
        omega
      · exact hoff1
      · simp only [csaOf]
        omega
    · subst h2
      have hsC := stepOf_overlap_zero M
      have hdm := Nat.div_add_mod j (stepOf M 0)
      rw [Nat.mul_comm] at hdm
      have hmod : j % stepOf M 0 < stepOf M 0 := Nat.mod_lt _ (by omega)
      refine ⟨j / stepOf M 0, ⟨by omega, lt_min_iff.2 ⟨by omega, by omega⟩⟩, ?_⟩
      rw [winv, if_pos rfl]
      norm_num
  have hm0 : m0 ∈ Finset.range (numChunks M L overlap) :=
    Finset.mem_range.2 (mem_numChunks M L overlap m0 h1
      (lt_of_le_of_lt hcov.1 (lt_of_lt_of_le hcov.2 (min_le_right _ _))))
  have hle := Finset.single_le_sum
    (f := fun m => if chunkCovers M L overlap m j then
      winv overlap (csaOf M L overlap m) (j - m * stepOf M overlap) else 0)
    (fun i _ => by
      dsimp only
      split
      · exact winv_nonneg _ _ _
      · exact le_refl 0)
    hm0
  simp only [if_pos hcov] at hle
  exact lt_of_lt_of_le hwin hle

/-- Evaluation rule for the chunk stride: `stepOf M overlap = k` whenever
`k ≤ (1 - overlap) * chunk_size < k + 1`. -/
theorem stepOf_eval (M : MdxModel) (overlap : ℚ) (k : ℕ)
    (h1 : (k : ℚ) ≤ (1 - overlap) * M.chunkSize)
    (h2 : (1 - overlap) * M.chunkSize < k + 1) :
    stepOf M overlap = k := by
  simp only [stepOf]
  have hfl : Int.floor ((1 - overlap) * (M.chunkSize : ℚ)) = (k : ℤ) := by
    rw [Int.floor_eq_iff]
    constructor
    · push_cast
      exact h1
    · push_cast
      exact h2
  rw [hfl]
  simp

/-- C3: the divider-positivity invariant in its amended form: whenever the
stride satisfies `1 ≤ step` and `step ≤ chunk_size − 2` (or `overlap = 0`,
where no window is applied), the `divider` accumulator of `demix` is
strictly positive at every sample position `j` with
`1 ≤ j ≤ mixture_len − 2` — a range that contains the whole valid region
`[trim, trim + L)` surviving the final trimming, as the second conjunct
states — so `result / divider` is finite there. -/
theorem divider_strictly_positive (M : MdxModel) (L : ℕ) (overlap : ℚ)
    (h1 : 1 ≤ stepOf M overlap)
    (h2 : stepOf M overlap + 2 ≤ M.chunkSize ∨ overlap = 0)
    (htrim : 1 ≤ trimOf M) (hgen : 1 ≤ genSize M) :
    (∀ j, 1 ≤ j → j + 2 ≤ mixtureLen M L → 0 < dividerArr M L overlap j)
      ∧ ∀ j, j < L → 0 < dividerArr M L overlap (trimOf M + j) := by
  have hmod : L % genSize M < genSize M := Nat.mod_lt _ (by omega)
  have hpad : trimOf M + 1 ≤ padOf M L := by
    simp only [padOf]
    omega
  refine ⟨fun j hj1 hj2 => divider_pos M L overlap h1 h2 j hj1 hj2, ?_⟩
  intro j hj
  apply divider_pos M L overlap h1 h2
  · omega
  · simp only [mixtureLen]
    omega

/-- C3 counterexample: with the program's model constants
(chunk_size = 261120, n_fft = 7680), the default `overlap_VOCFT = 0.1` and
an input of exactly one chunk length, position 0 of the padded mixture is
covered by the first chunk, yet the Hann window vanishes at its first
sample, so the `divider` accumulator is exactly zero there: the divider is
not strictly positive at every covered position. -/
theorem divider_positive_cex :
    chunkCovers Mex 261120 (1 / 10) 0 0
      ∧ dividerArr Mex 261120 (1 / 10) 0 = 0 := by
  have hstep : stepOf Mex (1 / 10) = 235008 :=
    stepOf_eval Mex (1 / 10) 235008 (by norm_num [Mex]) (by norm_num [Mex])
  have hlen : mixtureLen Mex 261120 = 514560 := by
    norm_num [mixtureLen, padOf, genSize, trimOf, Mex]
  have hnum : numChunks Mex 261120 (1 / 10) = 3 := by
    simp only [numChunks, hstep, hlen]
  have hcov0 : chunkCovers Mex 261120 (1 / 10) 0 0 := by
    refine ⟨by omega, lt_min_iff.2 ⟨?_, ?_⟩⟩
    · rw [hstep]
      norm_num [Mex]
    · rw [hlen]
      norm_num
  have hncov1 : ¬ chunkCovers Mex 261120 (1 / 10) 1 0 := by
    simp only [chunkCovers, hstep]
    omega
  have hncov2 : ¬ chunkCovers Mex 261120 (1 / 10) 2 0 := by
    simp only [chunkCovers, hstep]
    omega
  have hcsa0 : csaOf Mex 261120 (1 / 10) 0 = 261120 := by
    simp only [csaOf, hstep, hlen, show Mex.chunkSize = 261120 from rfl]
    omega
  have h10 : (1 / 10 : ℚ) ≠ 0 := by norm_num
  refine ⟨hcov0, ?_⟩
  simp only [dividerArr, hnum, Finset.sum_range_succ, Finset.sum_range_zero,
    if_neg hncov1, if_neg hncov2, if_pos hcov0, hcsa0, Nat.zero_mul,
    Nat.zero_sub, winv, if_neg h10]
  rw [hanning_left_zero 261120 (by norm_num)]
  norm_num

/-- C3 witness: the amended divider invariant applied at the program's model
constants with `overlap = 0.1`: the divider is strictly positive at the
first sample of the valid region. -/
theorem divider_strictly_positive_witness :
    0 < dividerArr Mex 261120 (1 / 10) (trimOf Mex + 0) := by
  have hstep : stepOf Mex (1 / 10) = 235008 :=
    stepOf_eval Mex (1 / 10) 235008 (by norm_num [Mex]) (by norm_num [Mex])
  exact (divider_strictly_positive Mex 261120 (1 / 10)
    (by rw [hstep]; norm_num)
    (Or.inl (by rw [hstep]; norm_num [Mex]))
    (by norm_num [trimOf, Mex])
    (by norm_num [genSize, trimOf, Mex])).2 0 (by norm_num)

/-- C4 (amended): the overlap-add identity — if the per-chunk transform of
`demix` is the identity, then at every output sample `j < L` the Windowed
Chunk Processor reproduces the input exactly, provided the derived stride
satisfies `1 ≤ step ≤ chunk_size − 2` or `overlap = 0`.  (For the
pathological overlap fractions in `(0, 1/chunk_size]`, whose stride is
`chunk_size − 1`, consecutive Hann windows vanish simultaneously and the
identity fails — see the counterexample.) -/
theorem overlap_add_identity (M : MdxModel) (overlap : ℚ) (mix : ℕ → ℝ)
    (L j : ℕ) (hM : ∀ c, chunkOut M c = c)
    (h1 : 1 ≤ stepOf M overlap)
    (h2 : stepOf M overlap + 2 ≤ M.chunkSize ∨ overlap = 0)
    (htrim : 1 ≤ trimOf M) (hgen : 1 ≤ genSize M) (hj : j < L) :
    demix M mix L overlap j = mix j := by
  have hmod : L % genSize M < genSize M := Nat.mod_lt _ (by omega)
  have hpad : trimOf M + 1 ≤ padOf M L := by
    simp only [padOf]
    omega
  have hdiv : 0 < dividerArr M L overlap (trimOf M + j) := by
    apply divider_pos M L overlap h1 h2
    · omega
    · simp only [mixtureLen]
      omega
  have hmixarr : mixtureArr M mix L (trimOf M + j) = mix j := by
    simp only [mixtureArr]
    rw [if_neg (by omega), if_pos (by omega)]
    congr 1
    omega
  have hres : resultArr M mix L overlap (trimOf M + j)
      = mixtureArr M mix L (trimOf M + j)
        * dividerArr M L overlap (trimOf M + j) := by
    simp only [resultArr, dividerArr, Finset.mul_sum]
    apply Finset.sum_congr rfl
    intro m _
    by_cases hc : chunkCovers M L overlap m (trimOf M + j)
    · rw [if_pos hc, if_pos hc, hM]
      have hoff : chunkInput M mix L overlap m
          (trimOf M + j - m * stepOf M overlap)
          = mixtureArr M mix L (trimOf M + j) := by
        obtain ⟨hc1, hc2⟩ := hc
        simp only [chunkInput]
        rw [if_pos (by simp only [csaOf]; omega)]
        congr 1
        omega
      rw [hoff]
      ring
    · rw [if_neg hc, if_neg hc, mul_zero]
  simp only [demix]
  rw [hres, hmixarr, mul_div_assoc, div_self (ne_of_gt hdiv), mul_one]

/-- C4 counterexample: with the program's model constants, the identity
per-chunk transform, a constant-1 input of exactly one chunk length
(L = 261120 ≥ chunk_size) and overlap fraction 1/522240 ∈ [0, 0.99) — whose
derived stride is chunk_size − 1 = 261119 — the processor does not
reproduce the input: at output sample 257279 both covering chunks meet the
sample at a vanishing Hann-window point, `divider` is 0 there, and the
output sample is 0 instead of 1. -/
theorem overlap_add_identity_cex :
    demix Mex (fun _ => (1 : ℝ)) 261120 (1 / 522240) 257279 ≠ 1 := by
  have hstep : stepOf Mex (1 / 522240) = 261119 :=
    stepOf_eval Mex (1 / 522240) 261119 (by norm_num [Mex]) (by norm_num [Mex])
  have hlen : mixtureLen Mex 261120 = 514560 := by
    norm_num [mixtureLen, padOf, genSize, trimOf, Mex]
  have hnum : numChunks Mex 261120 (1 / 522240) = 2 := by
    simp only [numChunks, hstep, hlen]
  have htrim : trimOf Mex = 3840 := by norm_num [trimOf, Mex]
  have hcov0 : chunkCovers Mex 261120 (1 / 522240) 0 261119 := by
    refine ⟨by omega, lt_min_iff.2 ⟨?_, ?_⟩⟩
    · rw [hstep]
      norm_num [Mex]
    · rw [hlen]
      norm_num
  have hcov1 : chunkCovers Mex 261120 (1 / 522240) 1 261119 := by
    refine ⟨by rw [hstep], lt_min_iff.2 ⟨?_, ?_⟩⟩
    · rw [hstep]
      norm_num [Mex]
    · rw [hlen]
      norm_num
  have hcsa0 : csaOf Mex 261120 (1 / 522240) 0 = 261120 := by
    simp only [csaOf, hstep, hlen, show Mex.chunkSize = 261120 from rfl]
    omega
  have hcsa1 : csaOf Mex 261120 (1 / 522240) 1 = 253441 := by
    simp only [csaOf, hstep, hlen, show Mex.chunkSize = 261120 from rfl]
    omega
  have hq : (1 / 522240 : ℚ) ≠ 0 := by norm_num
  have hh0 : hanning 261120 261119 = 0 := by
    have h := hanning_right_zero 261120 (by norm_num)
    norm_num at h
    exact h
  have hh1 : hanning 253441 0 = 0 := hanning_left_zero 253441 (by norm_num)
  have hoff0 : 261119 - 0 * stepOf Mex (1 / 522240) = 261119 := by omega
  have hoff1 : 261119 - 1 * stepOf Mex (1 / 522240) = 0 := by
    rw [hstep]
  have hdivz : dividerArr Mex 261120 (1 / 522240) 261119 = 0 := by
    simp only [dividerArr, hnum, Finset.sum_range_succ, Finset.sum_range_zero,
      if_pos hcov0, if_pos hcov1, hcsa0, hcsa1, hoff0, hoff1, winv,
      if_neg hq, hh0, hh1]
    norm_num
  have hresz : resultArr Mex (fun _ => (1 : ℝ)) 261120 (1 / 522240) 261119
      = 0 := by
    simp only [resultArr, hnum, Finset.sum_range_succ, Finset.sum_range_zero,
      if_pos hcov0, if_pos hcov1, hcsa0, hcsa1, hoff0, hoff1, winv,
      if_neg hq, hh0, hh1]
    norm_num
  simp only [demix, htrim, show 3840 + 257279 = 261119 from rfl, hdivz, hresz]
  norm_num

/-- C4 witness: the amended overlap-add identity applied at the program's
model constants, identity per-chunk transform, `overlap = 0.1` (stride
235008 ≤ chunk_size − 2), and the constant-1 input of one chunk length:
output sample 0 equals input sample 0. -/
theorem overlap_add_identity_witness :
    demix Mex (fun _ => (1 : ℝ)) 261120 (1 / 10) 0 = 1 := by
  have hstep : stepOf Mex (1 / 10) = 235008 :=
    stepOf_eval Mex (1 / 10) 235008 (by norm_num [Mex]) (by norm_num [Mex])
  exact overlap_add_identity Mex (1 / 10) (fun _ => (1 : ℝ)) 261120 0
    (fun c => funext fun t => rfl)
    (by rw [hstep]; norm_num)
    (Or.inl (by rw [hstep]; norm_num [Mex]))
    (by norm_num [trimOf, Mex])
    (by norm_num [genSize, trimOf, Mex])
    (by norm_num)

end AudioSep
